import Mathlib

/-!
Verification development for a semantic-version library (Go sources
`version.go` and `constraint.go`).  Go strings are modeled as `List Char`
(UTF-8 byte order coincides with code-point order, so Go's byte-wise
string comparison is code-point lexicographic comparison), Go `uint64`
as `Nat` with explicit `% 2^64` where overflow can occur, and Go panics
and map misses as `Option`/`Except` failures.  All definitions are
executable and structurally recursive so that concrete runs reduce by
`rfl`/`decide`.
-/

/-- Whitespace class of Go's regexp `\s`, i.e. the characters tab,
newline, form feed, carriage return and space. -/
def goSpace (c : Char) : Bool :=
  c = ' ' || c = '\t' || c = '\n' || c = '\x0c' || c = '\x0d'

/-- Lexicographic strict order on character lists by code point; this is
exactly Go's byte-wise `<` on UTF-8 strings. -/
def listCharLt : List Char → List Char → Bool
  | [], [] => false
  | [], _ :: _ => true
  | _ :: _, [] => false
  | a :: as, b :: bs =>
    if a.toNat < b.toNat then true
    else if b.toNat < a.toNat then false
    else listCharLt as bs

/-- Index of the first occurrence of a character, as Go's `strings.Index`
for a one-character substring (`none` for Go's `-1`). -/
def indexOfChar (c : Char) : List Char → Option Nat
  | [] => none
  | x :: t => if x = c then some 0 else (indexOfChar c t).map (· + 1)

/-- Index of the first occurrence of any character of `cs`, as Go's
`strings.IndexAny` (`none` for Go's `-1`). -/
def indexOfAny (cs : List Char) : List Char → Option Nat
  | [] => none
  | x :: t => if cs.contains x then some 0 else (indexOfAny cs t).map (· + 1)

/-- Split on a single-character separator, as Go's `strings.Split`:
the result is never empty, and the empty input yields `[[]]`. -/
def splitOnChar (sep : Char) : List Char → List (List Char)
  | [] => [[]]
  | c :: rest =>
    match splitOnChar sep rest with
    | [] => [[]]
    | h :: t => if c = sep then [] :: h :: t else (c :: h) :: t

/-- Split on the two-character separator `||`, as Go's
`strings.Split(c, "||")` used by `NewConstraint`. -/
def splitOnBars : List Char → List (List Char)
  | [] => [[]]
  | '|' :: '|' :: rest =>
    match splitOnBars rest with
    | [] => [[], []]
    | t => [] :: t
  | c :: rest =>
    match splitOnBars rest with
    | [] => [[]]
    | h :: t => (c :: h) :: t

/-- Element of a `List Nat` at an index, with Go's out-of-bounds access
defaulted to `0`; every use below is guarded exactly as the Go code
guards its index. -/
def nthD : List Nat → Nat → Nat
  | [], _ => 0
  | x :: _, 0 => x
  | _ :: t, n + 1 => nthD t n

/-- Element of a list of strings at an index, defaulted to the empty
string: this realizes the `stemp`/`otemp` placeholder pattern of
`comparePrerelease`. -/
def nthStrD : List (List Char) → Nat → List Char
  | [], _ => []
  | x :: _, 0 => x
  | _ :: t, n + 1 => nthStrD t n

/-- Longest prefix satisfying `p` together with the remainder
(`takeWhile`/`dropWhile` in one pass). -/
def takeWhileSplit (p : Char → Bool) : List Char → List Char × List Char
  | [] => ([], [])
  | c :: rest =>
    if p c then
      match takeWhileSplit p rest with
      | (tk, dr) => (c :: tk, dr)
    else ([], c :: rest)

/-- Replace the element at an index, leaving the list unchanged when the
index is out of range. -/
def updAt : List Nat → Nat → Nat → List Nat
  | [], _, _ => []
  | _ :: t, 0, x => x :: t
  | h :: t, n + 1, x => h :: updAt t n x

/-- Digit characters, the Go constant `num`. -/
def numChars : List Char := "0123456789".toList

/-- ASCII letters, hyphen and digits, the Go constant `allowed`. -/
def allowedChars : List Char :=
  "abcdefghijklmnopqrstuvwxyzABCDEFGHIJKLMNOPQRSTUVWXYZ-0123456789".toList

/-- Go helper `containsOnly`: every character of `s` lies in `comp`
(vacuously true for the empty string, as in Go). -/
def containsOnly (s comp : List Char) : Bool :=
  s.all (fun r => comp.contains r)

/-- Decimal accumulation used by `goParseUint64`. -/
def digitsToNat : List Char → Nat → Nat
  | [], acc => acc
  | c :: t, acc => digitsToNat t (acc * 10 + (c.toNat - '0'.toNat))

/-- Go's `strconv.ParseUint(s, 10, 64)` as used by the sources: it fails
on the empty string, on any non-digit character (a sign prefix is not
permitted) and on values that do not fit in 64 bits; `none` stands for a
non-nil error. -/
def goParseUint64 (s : List Char) : Option Nat :=
  if s = [] then none
  else if s.all (fun c => c.isDigit) then
    let n := digitsToNat s 0
    if n < 2 ^ 64 then some n else none
  else none

/-- Error values of `version.go`. -/
inductive VErr where
  | emptyString
  | invalidSemVer
  | invalidCharacters
  | segmentStartsZero
  | invalidMetadata
  | invalidPrerelease
deriving DecidableEq, Repr

/-- The `Version` struct: numeric parts (Go `[]uint64`), prerelease,
build metadata and the verbatim original text. -/
structure Version where
  parts : List Nat
  pre : List Char
  metadata : List Char
  original : List Char
deriving DecidableEq, Repr

/-- The numeric-segment loop of `StrictNewVersion`: each dot-separated
segment must `ParseUint` (else `ErrInvalidCharacters`) and must not have
a leading zero with length above one (else `ErrSegmentStartsZero`);
errors are reported for the leftmost offending segment, checking the
parse failure first, exactly as the Go loop does. -/
def parsePartsList : List (List Char) → Except VErr (List Nat)
  | [] => .ok []
  | p :: rest =>
    match goParseUint64 p with
    | none => .error .invalidCharacters
    | some n =>
      if p.length > 1 ∧ p.head? = some '0' then .error .segmentStartsZero
      else
        match parsePartsList rest with
        | .error e => .error e
        | .ok ns => .ok (n :: ns)

/-- Go `validatePrerelease`: dot-split identifiers must be all-numeric
without a leading zero, or alphanumeric-with-hyphen; `none` means valid. -/
def validatePrerelease (p : List Char) : Option VErr :=
  go (splitOnChar '.' p)
where
  go : List (List Char) → Option VErr
    | [] => none
    | part :: rest =>
      if containsOnly part numChars then
        if part.length > 1 ∧ part.head? = some '0' then some .segmentStartsZero
        else go rest
      else if ¬ containsOnly part allowedChars then some .invalidPrerelease
      else go rest

/-- Go `validateMetadata`: dot-split identifiers must consist of ASCII
alphanumerics and hyphen; `none` means valid. -/
def validateMetadata (m : List Char) : Option VErr :=
  go (splitOnChar '.' m)
where
  go : List (List Char) → Option VErr
    | [] => none
    | part :: rest =>
      if ¬ containsOnly part allowedChars then some .invalidMetadata
      else go rest

/-- Go `StrictNewVersion` on the character list of the input.  The
prerelease is split off at the first `-` anywhere in the string; only
when no `-` exists is the metadata split off at the first `+`; a `+`
inside the extracted prerelease is then re-split into metadata. -/
def strictNewVersionL (v : List Char) : Except VErr Version :=
  if v.length = 0 then .error .emptyString
  else
    let split1 : List Char × List Char × List Char :=
      match indexOfChar '-' v with
      | some i => (v.take i, v.drop (i + 1), [])
      | none =>
        match indexOfChar '+' v with
        | some i => (v.take i, [], v.drop (i + 1))
        | none => (v, [], [])
    let partsString := split1.1
    let pre0 := split1.2.1
    let meta0 := split1.2.2
    let split2 : List Char × List Char :=
      if pre0 ≠ [] then
        match indexOfChar '+' pre0 with
        | some i => (pre0.take i, pre0.drop (i + 1))
        | none => (pre0, meta0)
      else (pre0, meta0)
    let pre := split2.1
    let metadata := split2.2
    let parts := splitOnChar '.' partsString
    if parts.length = 0 then .error .invalidSemVer
    else
      match parsePartsList parts with
      | .error e => .error e
      | .ok ns =>
        if pre = [] ∧ metadata = [] then
          .ok { parts := ns, pre := pre, metadata := metadata, original := v }
        else
          match (if pre ≠ [] then validatePrerelease pre else none) with
          | some e => .error e
          | none =>
            match (if metadata ≠ [] then validateMetadata metadata else none) with
            | some e => .error e
            | none =>
              .ok { parts := ns, pre := pre, metadata := metadata, original := v }

/-- Go `StrictNewVersion` on a string. -/
def StrictNewVersion (v : String) : Except VErr Version :=
  strictNewVersionL v.toList

/-- Go `strings.TrimPrefix(v, "v")`: drop one leading `v` if present. -/
def trimV : List Char → List Char
  | 'v' :: t => t
  | l => l

/-- Go `NewVersion` on the character list: strict parsing after dropping
an optional leading `v`, then the original is restored to the full
input. -/
def newVersionL (v : List Char) : Except VErr Version :=
  match strictNewVersionL (trimV v) with
  | .error e => .error e
  | .ok sv => .ok { sv with original := v }

/-- Go `NewVersion` on a string. -/
def NewVersion (v : String) : Except VErr Version :=
  newVersionL v.toList

/-- Go `(*Version).PartsNumber`. -/
def partsNumber (v : Version) : Nat := v.parts.length

/-- Go `(*Version).Part` for indices `part ≥ 1`: the guarded direct index
for `part ≤ len(parts)` and the virtual zero padding beyond.  (For
`part ≤ 0` the Go method panics; that behavior is modeled separately by
`PartGo`.) -/
def partOf (v : Version) (part : Nat) : Nat :=
  if v.parts.length ≥ part then nthD v.parts (part - 1) else 0

/-- Go `(*Version).Part` with the Go `int` argument and the panic made
explicit: when `len(parts) >= part` the code indexes `parts[part-1]`,
which is out of bounds (a panic, modeled as `none`) unless
`1 ≤ part ≤ len(parts)`. -/
def PartGo (v : Version) (part : Int) : Option Nat :=
  if (v.parts.length : Int) ≥ part then
    if 0 ≤ part - 1 ∧ part - 1 < (v.parts.length : Int) then
      some (nthD v.parts (part - 1).toNat)
    else none
  else some 0

/-- Go `maxPartsNumberOf`. -/
def maxPartsNumberOf (v1 v2 : Version) : Nat :=
  let n1 := partsNumber v1
  let n2 := partsNumber v2
  if n2 > n1 then n2 else n1

/-- Go `compareSegment`. -/
def compareSegment (v o : Nat) : Int :=
  if v < o then -1 else if v > o then 1 else 0

/-- Go `comparePrePart` on two prerelease identifiers: fast path on
equality, the empty placeholder compares below any non-empty identifier,
numeric identifiers compare numerically and sort below alphanumeric
ones, and two alphanumeric identifiers compare as Go strings. -/
def comparePrePart (s o : List Char) : Int :=
  if s = o then 0
  else if s = [] then (if o ≠ [] then -1 else 1)
  else if o = [] then (if s ≠ [] then 1 else -1)
  else
    match goParseUint64 o, goParseUint64 s with
    | none, none => if listCharLt o s then 1 else -1
    | none, some _ => -1
    | some _, none => 1
    | some oi, some si => if si > oi then 1 else -1

/-- Index loop of Go `comparePrerelease`: walk the indices, reading each
side with an empty-string placeholder beyond its length, and return the
first non-zero `comparePrePart`. -/
def comparePreAux (sparts oparts : List (List Char)) : List Nat → Int
  | [] => 0
  | i :: rest =>
    let stemp := nthStrD sparts i
    let otemp := nthStrD oparts i
    let d := comparePrePart stemp otemp
    if d ≠ 0 then d else comparePreAux sparts oparts rest

/-- Go `comparePrerelease`: split both prereleases on `.` and compare
identifier by identifier up to the longer length. -/
def comparePrerelease (v o : List Char) : Int :=
  let sparts := splitOnChar '.' v
  let oparts := splitOnChar '.' o
  let slen := sparts.length
  let olen := oparts.length
  let l := if olen > slen then olen else slen
  comparePreAux sparts oparts (List.range l)

/-- Numeric-segment loop of Go `Compare`: first index (from 1) whose
`compareSegment` is non-zero, if any. -/
def segLoop (v o : Version) : List Nat → Option Int
  | [] => none
  | i :: rest =>
    let d := compareSegment (partOf v i) (partOf o i)
    if d ≠ 0 then some d else segLoop v o rest

/-- Go `(*Version).Compare`: compare zero-padded numeric parts from left
to right, then break ties on prereleases (a version with a prerelease is
below one without; metadata is ignored entirely). -/
def versionCompare (v o : Version) : Int :=
  let n := maxPartsNumberOf v o
  match segLoop v o (List.range' 1 n) with
  | some d => d
  | none =>
    let ps := v.pre
    let po := o.pre
    if ps = [] ∧ po = [] then 0
    else if ps = [] then 1
    else if po = [] then -1
    else comparePrerelease ps po

/-- Go `(*Version).Equal`. -/
def versionEqual (v o : Version) : Bool := versionCompare v o = 0

/-- Go `(*Version).LessThan`. -/
def versionLessThan (v o : Version) : Bool := versionCompare v o < 0

/-- Go `(*Version).GreaterThan`. -/
def versionGreaterThan (v o : Version) : Bool := versionCompare v o > 0

/-- Decimal rendering of a numeric part (`strconv.FormatUint(n, 10)`). -/
def natToChars (n : Nat) : List Char := Nat.toDigits 10 n

/-- The switch in Go `updateOriginal` that writes the dot-joined parts. -/
def joinParts : List Nat → List Char
  | [] => []
  | [n] => natToChars n
  | n :: rest => natToChars n ++ '.' :: joinParts rest

/-- Go `originalVPrefix`: the original leading `v`, if any. -/
def originalVPrefixOf (v : Version) : List Char :=
  if v.original ≠ [] ∧ v.original.head? = some 'v' then ['v'] else []

/-- Go `updateOriginal`: regenerate `original` from the prefix, parts,
prerelease and metadata. -/
def updateOriginal (v : Version) : Version :=
  { v with
    original :=
      originalVPrefixOf v ++ joinParts v.parts ++
        (if v.pre ≠ [] then '-' :: v.pre else []) ++
        (if v.metadata ≠ [] then '+' :: v.metadata else []) }

/-- Go `(*Version).String`: the original with a leading `v` stripped. -/
def versionString (v : Version) : List Char := trimV v.original

/-- Go `ensurePartsNumber`: pad the parts with zeros up to the expected
length. -/
def ensureParts (l : List Nat) (expect : Nat) : List Nat :=
  if l.length ≥ expect then l else l ++ List.replicate (expect - l.length) 0

/-- Zeroing loop of Go `IncPart` (`for i := part; i < len; i++`). -/
def zeroFrom (l : List Nat) (part : Nat) : List Nat :=
  l.take part ++ List.replicate (l.length - part) 0

/-- Go `(*Version).IncPart`: pad to the requested index; on the last part
either strip the prerelease and metadata (when a prerelease exists) or
strip the metadata and increment; before the last part strip both,
increment and zero the later parts.  The `uint64` increment wraps at
`2^64`.  (Go panics for `part = 0`; all theorems below assume
`1 ≤ part`.) -/
def incPart (v : Version) (part : Nat) : Version :=
  let ps := ensureParts v.parts part
  if ps.length ≤ part then
    if v.pre ≠ [] then
      updateOriginal { v with parts := ps, pre := [], metadata := [] }
    else
      let ps2 := updAt ps (ps.length - 1) ((nthD ps (ps.length - 1) + 1) % 2 ^ 64)
      updateOriginal { v with parts := ps2, pre := [], metadata := [] }
  else
    let ps2 := updAt ps (part - 1) ((nthD ps (part - 1) + 1) % 2 ^ 64)
    let ps3 := zeroFrom ps2 part
    updateOriginal { v with parts := ps3, pre := [], metadata := [] }

/-- Go `IncPatch` (`IncPart(3)`). -/
def incPatch (v : Version) : Version := incPart v 3

/-- Go `IncMinor` (`IncPart(2)`). -/
def incMinor (v : Version) : Version := incPart v 2

/-- Go `IncMajor` (`IncPart(1)`). -/
def incMajor (v : Version) : Version := incPart v 1

/-- Go `IncLast` (`IncPart(len(parts))`). -/
def incLast (v : Version) : Version := incPart v v.parts.length

/-- Evaluation-time failure kinds of the constraint functions; each
constructor stands for one `fmt.Errorf` site of `constraint.go` (the
message strings themselves carry no information the development needs). -/
inductive CheckErr where
  | prereleaseOnly
  | notEqualOnPre
  | equalTo
  | notEqualTo
  | lessThan
  | greaterThan
  | lessThanOrEqualTo
  | greaterThanOrEqualTo
  | partMismatch
  | caretAllZero
  | caretPartMismatch
deriving DecidableEq, Repr

/-- The `constraint` struct: reference version, original version token,
original operator and the 1-based index of the first wildcard segment
(`0` when no wildcard was used). -/
structure constraint where
  con : Version
  orig : List Char
  origfunc : List Char
  dirtyPart : Nat
deriving DecidableEq, Repr

/-- Go `maxNonDirtyPartsNumberOf`. -/
def maxNonDirtyPartsNumberOf (v : Version) (c : constraint) : Nat :=
  let n := maxPartsNumberOf v c.con
  if c.dirtyPart > 0 ∧ n > c.dirtyPart then c.dirtyPart else n

/-- Part-equality loop shared by the constraint functions: the first index
in the list where the two versions' `Part` values differ. -/
def firstMismatch (v w : Version) : List Nat → Option Nat
  | [] => none
  | i :: rest =>
    if partOf v i ≠ partOf w i then some i else firstMismatch v w rest

/-- Go `constraintNotEqual`: with a wildcard, prereleases on either side
are rejected, then the compared segments strictly before the dirty part
must differ somewhere; without a wildcard, plain non-equality by
`Compare`. -/
def constraintNotEqual (v : Version) (c : constraint) : Bool × Option CheckErr :=
  if c.dirtyPart > 0 then
    if v.pre ≠ [] ∨ c.con.pre ≠ [] then (false, some .notEqualOnPre)
    else
      match firstMismatch c.con v (List.range' 1 (maxNonDirtyPartsNumberOf v c - 1)) with
      | some _ => (true, none)
      | none => (false, some .equalTo)
  else
    if versionEqual v c.con then (false, some .equalTo) else (true, none)

/-- Go `constraintGreaterThan`: prerelease guard, then `Compare == 1`. -/
def constraintGreaterThan (v : Version) (c : constraint) : Bool × Option CheckErr :=
  if v.pre ≠ [] ∧ c.con.pre = [] then (false, some .prereleaseOnly)
  else if versionCompare v c.con = 1 then (true, none)
  else (false, some .lessThanOrEqualTo)

/-- Go `constraintLessThan`: prerelease guard, then `Compare == -1`. -/
def constraintLessThan (v : Version) (c : constraint) : Bool × Option CheckErr :=
  if v.pre ≠ [] ∧ c.con.pre = [] then (false, some .prereleaseOnly)
  else if versionCompare v c.con = -1 then (true, none)
  else (false, some .greaterThanOrEqualTo)

/-- Go `constraintGreaterThanEqual`: prerelease guard, then
`Compare >= 0`. -/
def constraintGreaterThanEqual (v : Version) (c : constraint) : Bool × Option CheckErr :=
  if v.pre ≠ [] ∧ c.con.pre = [] then (false, some .prereleaseOnly)
  else if versionCompare v c.con ≥ 0 then (true, none)
  else (false, some .lessThan)

/-- Go `constraintLessThanEqual`: prerelease guard, then `Compare <= 0`. -/
def constraintLessThanEqual (v : Version) (c : constraint) : Bool × Option CheckErr :=
  if v.pre ≠ [] ∧ c.con.pre = [] then (false, some .prereleaseOnly)
  else if versionCompare v c.con ≤ 0 then (true, none)
  else (false, some .greaterThan)

/-- Go `(*constraint).dirtyPartOrLen`. -/
def dirtyPartOrLen (c : constraint) : Nat :=
  if c.dirtyPart > 0 then c.dirtyPart else partsNumber c.con

/-- Go `constraintTilde`: prerelease guard, `v >= con`, and equality of
every part strictly before the dirty part (or before the last stated
part when no wildcard is present). -/
def constraintTilde (v : Version) (c : constraint) : Bool × Option CheckErr :=
  if v.pre ≠ [] ∧ c.con.pre = [] then (false, some .prereleaseOnly)
  else if versionLessThan v c.con then (false, some .lessThan)
  else
    match firstMismatch v c.con (List.range' 1 (dirtyPartOrLen c - 1)) with
    | some _ => (false, some .partMismatch)
    | none => (true, none)

/-- Go `constraintTildeOrEqual`: prerelease guard; with a wildcard it
delegates to `constraintTilde`, otherwise straight `Equal`. -/
def constraintTildeOrEqual (v : Version) (c : constraint) : Bool × Option CheckErr :=
  if v.pre ≠ [] ∧ c.con.pre = [] then (false, some .prereleaseOnly)
  else if c.dirtyPart > 0 then constraintTilde v c
  else if versionEqual v c.con then (true, none)
  else (false, some .notEqualTo)

/-- Go `(*Version).leftZeroPartNumber`: count of leading all-zero parts. -/
def leftZeroPartNumber (v : Version) : Nat :=
  go v.parts
where
  go : List Nat → Nat
    | [] => 0
    | p :: rest => if p = 0 then go rest + 1 else 0

/-- Go `constraintCaret` (current variant): prerelease guard; an all-zero
reference is rejected; then `v >= con` and equality of the parts at
indices `1..leftZeroPartNumber`. -/
def constraintCaret (v : Version) (c : constraint) : Bool × Option CheckErr :=
  if v.pre ≠ [] ∧ c.con.pre = [] then (false, some .prereleaseOnly)
  else
    let z := leftZeroPartNumber c.con
    if z = partsNumber c.con then (false, some .caretAllZero)
    else if versionLessThan v c.con then (false, some .lessThan)
    else
      match firstMismatch v c.con (List.range' 1 z) with
      | some _ => (false, some .caretPartMismatch)
      | none => (true, none)

/-- The Go `constraintOps` map literal, as a lookup from the operator
text; `none` models a missing key (which would make the Go call site
panic). -/
def constraintOps (s : List Char) : Option (Version → constraint → Bool × Option CheckErr) :=
  if s = "".toList then some constraintTildeOrEqual
  else if s = "=".toList then some constraintTildeOrEqual
  else if s = "!=".toList then some constraintNotEqual
  else if s = ">".toList then some constraintGreaterThan
  else if s = "<".toList then some constraintLessThan
  else if s = ">=".toList then some constraintGreaterThanEqual
  else if s = "=>".toList then some constraintGreaterThanEqual
  else if s = "<=".toList then some constraintLessThanEqual
  else if s = "=<".toList then some constraintLessThanEqual
  else if s = "~".toList then some constraintTilde
  else if s = "~>".toList then some constraintTilde
  else if s = "^".toList then some constraintCaret
  else none

/-- Go `(*constraint).check`: dispatch through `constraintOps`. -/
def checkOne (c : constraint) (v : Version) : Option (Bool × Option CheckErr) :=
  (constraintOps c.origfunc).map (fun f => f v c)

/-- The `Constraints` struct: an OR-list of AND-lists. -/
structure Constraints where
  constraints : List (List constraint)
deriving DecidableEq, Repr

/-- Inner AND loop of Go `Constraints.Check`, with its short circuit on
the first failing constraint. -/
def checkGroup (v : Version) : List constraint → Option Bool
  | [] => some true
  | c :: rest =>
    match checkOne c v with
    | none => none
    | some (b, _) => if b then checkGroup v rest else some false

/-- Outer OR loop of Go `Constraints.Check`. -/
def checkGroups (v : Version) : List (List constraint) → Option Bool
  | [] => some false
  | g :: rest =>
    match checkGroup v g with
    | none => none
    | some joy => if joy then some true else checkGroups v rest

/-- Go `Constraints.Check`: true iff some OR-group's constraints all
pass. -/
def constraintsCheck (cs : Constraints) (v : Version) : Option Bool :=
  checkGroups v cs.constraints

/-- Inner AND loop of Go `Constraints.Validate`: every constraint of the
group is visited; a constraint whose reference has no prerelease while
the version has one fails via the special branch (its diagnostic is
recorded only the first time, tracked by `preFlag`); otherwise the
constraint's own error, if any, is appended.  Returns the group verdict
together with the updated flag and error list. -/
def validateGroup (v : Version) :
    List constraint → Bool → List CheckErr → Bool → Option (Bool × Bool × List CheckErr)
  | [], preFlag, acc, joy => some (joy, preFlag, acc)
  | c :: rest, preFlag, acc, joy =>
    if c.con.pre = [] ∧ v.pre ≠ [] then
      if ¬ preFlag then
        validateGroup v rest true (acc ++ [CheckErr.prereleaseOnly]) false
      else
        validateGroup v rest preFlag acc false
    else
      match checkOne c v with
      | none => none
      | some (_, some e) => validateGroup v rest preFlag (acc ++ [e]) false
      | some (_, none) => validateGroup v rest preFlag acc joy

/-- Outer OR loop of Go `Constraints.Validate`, threading the
first-prerelease-diagnostic flag and the error list across groups. -/
def validateGroups (v : Version) :
    List (List constraint) → Bool → List CheckErr → Option (Bool × List CheckErr)
  | [], _, acc => some (false, acc)
  | g :: rest, preFlag, acc =>
    match validateGroup v g preFlag acc true with
    | none => none
    | some (joy, preFlag2, acc2) =>
      if joy then some (true, []) else validateGroups v rest preFlag2 acc2

/-- Go `Constraints.Validate`: like `Check` but accumulating one error
per failing constraint across the attempted OR-groups, returning
`(true, [])` at the first fully passing group. -/
def constraintsValidate (cs : Constraints) (v : Version) : Option (Bool × List CheckErr) :=
  validateGroups v cs.constraints false []

/-- Character class `[0-9|x|X|\*]` of the constraint-version pattern
`cvRegex` (the literal `|` is part of the class in the Go source). -/
def numClass (c : Char) : Bool :=
  c.isDigit || c = '|' || c = 'x' || c = 'X' || c = '*'

/-- Character class `[0-9A-Za-z\-]` of the prerelease/metadata tails of
`cvRegex`. -/
def idClass (c : Char) : Bool :=
  c.isDigit || c.isAlpha || c = '-'

/-- Operator characters occurring in the `ops` alternation. -/
def opChar (c : Char) : Bool :=
  c = '=' || c = '!' || c = '<' || c = '>' || c = '~' || c = '^'

/-- The alternatives of the Go `ops` pattern
`=||!=|>|<|>=|=>|<=|=<|~|~>|\^` (the second alternative is empty). -/
def opsList : List (List Char) :=
  [['='], [], ['!', '='], ['>'], ['<'], ['>', '='], ['=', '>'],
   ['<', '='], ['=', '<'], ['~'], ['~', '>'], ['^']]

/-- Repetition `(\.C+)*` for a character class `C`: consume dot-prefixed
non-empty runs while possible; a dot not followed by a class character is
left unconsumed.  The fuel is always called with at least the length of
the input, which bounds the number of iterations. -/
def parseDotRuns (cls : Char → Bool) : Nat → List Char → List Char × List Char
  | 0, l => ([], l)
  | fuel + 1, l =>
    match l with
    | '.' :: r =>
      match takeWhileSplit cls r with
      | ([], _) => ([], l)
      | (run, rest) =>
        match parseDotRuns cls fuel rest with
        | (more, rest2) => ('.' :: run ++ more, rest2)
    | _ => ([], l)

/-- Optional suffix `(hC+(\.C+)*)?` for a head character `h` (the `-` of
the prerelease tail or the `+` of the metadata tail); returns the
consumed text (including `h`) and the remainder, consuming nothing when
the group cannot match. -/
def parseTail (h : Char) (cls : Char → Bool) (l : List Char) : List Char × List Char :=
  match l with
  | c :: r =>
    if c = h then
      match takeWhileSplit cls r with
      | ([], _) => ([], l)
      | (run, rest) =>
        match parseDotRuns cls rest.length rest with
        | (more, rest2) => (h :: run ++ more, rest2)
    else ([], l)
  | [] => ([], l)

/-- Recognizer of the Go pattern `cvRegex`
(`v?([0-9|x|X|\*]+)(\.[0-9|x|X|\*]+)*(-(ids))?(\+(ids))?`) at the head of
the input: the matched text and the remainder.  The greedy left-to-right
scan is exact here because each character class is disjoint from the
delimiter that may follow it, so the Go engine's backtracking can never
produce a different match. -/
def parseCv (l : List Char) : Option (List Char × List Char) :=
  let vsplit : List Char × List Char :=
    match l with
    | 'v' :: c :: rest => if numClass c then (['v'], c :: rest) else ([], l)
    | _ => ([], l)
  match takeWhileSplit numClass vsplit.2 with
  | ([], _) => none
  | (seg1, l2) =>
    match parseDotRuns numClass l2.length l2 with
    | (segs, l3) =>
      match parseTail '-' idClass l3 with
      | (pre, l4) =>
        match parseTail '+' idClass l4 with
        | (meta, l5) => some (vsplit.1 ++ seg1 ++ segs ++ pre ++ meta, l5)

/-- Recognizer of the anchored Go pattern `constraintRegex`
(`^\s*(ops)\s*(cvRegex)\s*$`), returning the two submatches `m[1]`
(operator) and `m[2]` (version text).  Because no operator character can
start `cvRegex`, the ordered alternation of `ops` can only succeed on
the maximal run of operator characters, which must then be one of the
listed alternatives. -/
def constraintRegexMatch (l : List Char) : Option (List Char × List Char) :=
  let s1 := takeWhileSplit goSpace l
  let o := takeWhileSplit opChar s1.2
  if opsList.contains o.1 then
    let s2 := takeWhileSplit goSpace o.2
    match parseCv s2.2 with
    | some (cv, rest) =>
      let s3 := takeWhileSplit goSpace rest
      if s3.2 = [] then some (o.1, cv) else none
    | none => none
  else none

/-- One step of the unanchored Go pattern `findConstraintRegex`
(`(ops)\s*(cvRegex)`) at the current position: the matched text and the
remainder. -/
def matchFindAt (l : List Char) : Option (List Char × List Char) :=
  let o := takeWhileSplit opChar l
  if opsList.contains o.1 then
    let sp := takeWhileSplit goSpace o.2
    match parseCv sp.2 with
    | some (cv, rest) => some (o.1 ++ sp.1 ++ cv, rest)
    | none => none
  else none

/-- Go `findConstraintRegex.FindAllString(v, -1)`: leftmost
non-overlapping matches, scanning forward one character after a failed
position.  Every match consumes at least one character, so the fuel
(called with the input length) suffices. -/
def findAllConstraints : Nat → List Char → List (List Char)
  | 0, _ => []
  | _ + 1, [] => []
  | fuel + 1, c :: rest =>
    match matchFindAt (c :: rest) with
    | some (m, r) => m :: findAllConstraints fuel r
    | none => findAllConstraints fuel rest

/-- One unit of the anchored Go pattern `validConstraintRegex`
(`^(\s*(ops)\s*(cvRegex)\s*\,?)+$`): spaces, operator, spaces, version
pattern, spaces and an optional comma; returns the remainder. -/
def parseValidUnit (l : List Char) : Option (List Char) :=
  let s1 := takeWhileSplit goSpace l
  let o := takeWhileSplit opChar s1.2
  if opsList.contains o.1 then
    let s2 := takeWhileSplit goSpace o.2
    match parseCv s2.2 with
    | some (_, rest) =>
      let s3 := takeWhileSplit goSpace rest
      match s3.2 with
      | ',' :: r => some r
      | r => some r
    | none => none
  else none

/-- Iterated units of `validConstraintRegex`; each unit consumes at least
the non-empty version pattern, so the fuel (the input length plus one)
suffices. -/
def validUnitsAux : Nat → List Char → Bool
  | 0, _ => false
  | fuel + 1, l =>
    match parseValidUnit l with
    | some [] => true
    | some rest => if rest.length < l.length then validUnitsAux fuel rest else false
    | none => false

/-- Go `validConstraintRegex.MatchString`: one or more comma/space
separated operator+version units spanning the whole segment. -/
def validSegment (l : List Char) : Bool :=
  validUnitsAux (l.length + 1) l

/-- One match of the unanchored Go pattern `constraintRangeRegex`
(`\s*(cvRegex)\s+-\s+(cvRegex)\s*`) at the current position: the whole
match, the two version submatches and the remainder. -/
def matchRangeAt (l : List Char) : Option (List Char × List Char × List Char × List Char) :=
  let s1 := takeWhileSplit goSpace l
  match parseCv s1.2 with
  | none => none
  | some (cv1, r2) =>
    let s2 := takeWhileSplit goSpace r2
    if s2.1 = [] then none
    else
      match s2.2 with
      | '-' :: r4 =>
        let s3 := takeWhileSplit goSpace r4
        if s3.1 = [] then none
        else
          match parseCv s3.2 with
          | none => none
          | some (cv2, r6) =>
            let s4 := takeWhileSplit goSpace r6
            some (s1.1 ++ cv1 ++ s2.1 ++ '-' :: s3.1 ++ cv2 ++ s4.1, cv1, cv2, s4.2)
      | _ => none

/-- Go `constraintRangeRegex.FindAllStringSubmatch(i, -1)`: leftmost
non-overlapping matches with their two version submatches. -/
def findAllRanges : Nat → List Char → List (List Char × List Char × List Char)
  | 0, _ => []
  | _ + 1, [] => []
  | fuel + 1, c :: rest =>
    match matchRangeAt (c :: rest) with
    | some (w, cv1, cv2, r) => (w, cv1, cv2) :: findAllRanges fuel r
    | none => findAllRanges fuel rest

/-- Whether `pat` is a prefix of `l`. -/
def isPfx : List Char → List Char → Bool
  | [], _ => true
  | _ :: _, [] => false
  | p :: ps, c :: cs => if p = c then isPfx ps cs else false

/-- Go `strings.Replace(o, pat, rep, 1)`: replace the first occurrence of
`pat` (all our patterns are non-empty). -/
def replaceFirst : Nat → List Char → List Char → List Char → List Char
  | 0, l, _, _ => l
  | _ + 1, [], _, _ => []
  | fuel + 1, c :: rest, pat, rep =>
    if isPfx pat (c :: rest) then rep ++ (c :: rest).drop pat.length
    else c :: replaceFirst fuel rest pat rep

/-- Go `rewriteRange`: textually rewrite every `a - b` hyphen range into
`>= a, <= b` before any other constraint parsing. -/
def rewriteRange (i : List Char) : List Char :=
  match findAllRanges (i.length + 1) i with
  | [] => i
  | ms =>
    ms.foldl
      (fun o m =>
        replaceFirst (o.length + 1) o m.1
          (">= ".toList ++ m.2.1 ++ ", <= ".toList ++ m.2.2))
      i

/-- Parse-time failure kinds of `NewConstraint`/`parseConstraint`. -/
inductive CPErr where
  | improperConstraint
  | parserError
deriving DecidableEq, Repr

/-- Index (1-based) of the first wildcard (`x`, `X` or `*`) segment, `0`
when there is none: the `dirtyPart` detection loop of `parseConstraint`. -/
def firstDirtyPart (parts : List (List Char)) : Nat :=
  go parts 1
where
  go : List (List Char) → Nat → Nat
    | [], _ => 0
    | p :: rest, i =>
      if p = "x".toList ∨ p = "*".toList ∨ p = "X".toList then i else go rest (i + 1)

/-- Go `parseConstraint` (current variant): match the anchored constraint
pattern, split off the prerelease/metadata tail at the first `+` or `-`,
locate the wildcard segment — which must be the last segment, else the
constraint is improper — rewrite the wildcard away (`"0"` when the whole
version is a wildcard, otherwise dropping the trailing `.x`) and parse
the result as a version.  The empty token yields the sentinel `*`
constraint. -/
def parseConstraintL (c : List Char) : Except CPErr constraint :=
  if c.length > 0 then
    match constraintRegexMatch c with
    | none => .error .improperConstraint
    | some (op, ver) =>
      let split : List Char × List Char :=
        match indexOfAny ['+', '-'] ver with
        | none => (ver, [])
        | some i => (ver.take i, ver.drop i)
      let verWithoutTrailing := split.1
      let preAndMeta := split.2
      let verParts := splitOnChar '.' verWithoutTrailing
      let dirtyPart := firstDirtyPart verParts
      if dirtyPart > 0 ∧ dirtyPart ≠ verParts.length then .error .improperConstraint
      else
        let verWithoutTrailing2 :=
          if dirtyPart = 1 then ['0']
          else if dirtyPart > 0 then verWithoutTrailing.take (verWithoutTrailing.length - 2)
          else verWithoutTrailing
        match newVersionL (verWithoutTrailing2 ++ preAndMeta) with
        | .error _ => .error .parserError
        | .ok con =>
          .ok { con := con, orig := ver, origfunc := op, dirtyPart := dirtyPart }
  else
    .ok
      { con := { parts := [0], pre := [], metadata := [], original := ['0'] },
        orig := [], origfunc := [], dirtyPart := 1 }

/-- Go `parseConstraint` on a string. -/
def parseConstraint (c : String) : Except CPErr constraint :=
  parseConstraintL c.toList

/-- Per-OR-segment body of Go `NewConstraint`: validate the segment, find
all operator+version tokens (falling back to the whole segment when none
is found) and parse each. -/
def parseSegment (v : List Char) : Except CPErr (List constraint) :=
  if ¬ validSegment v then .error .improperConstraint
  else
    let cs := findAllConstraints (v.length + 1) v
    let cs := if cs = [] then [v] else cs
    go cs
where
  go : List (List Char) → Except CPErr (List constraint)
    | [] => .ok []
    | s :: rest =>
      match parseConstraintL s with
      | .error e => .error e
      | .ok pc =>
        match go rest with
        | .error e => .error e
        | .ok pcs => .ok (pc :: pcs)

/-- Go `NewConstraint`: rewrite hyphen ranges, split on `||` and parse
each OR-segment into its AND-list of constraints. -/
def NewConstraint (s : String) : Except CPErr Constraints :=
  let c := rewriteRange s.toList
  let ors := splitOnBars c
  match go ors with
  | .error e => .error e
  | .ok groups => .ok { constraints := groups }
where
  go : List (List Char) → Except CPErr (List (List constraint))
    | [] => .ok []
    | v :: rest =>
      match parseSegment v with
      | .error e => .error e
      | .ok g =>
        match go rest with
        | .error e => .error e
        | .ok gs => .ok (g :: gs)

/-- Parse a constraint set and a version and run `Constraints.Check`;
`none` when either parse fails (or an operator key were missing). -/
def checkSV (c v : String) : Option Bool :=
  match NewConstraint c, NewVersion v with
  | .ok cs, .ok ver => constraintsCheck cs ver
  | _, _ => none

/-- Parse a constraint set and a version and run `Constraints.Validate`. -/
def validateSV (c v : String) : Option (Bool × List CheckErr) :=
  match NewConstraint c, NewVersion v with
  | .ok cs, .ok ver => constraintsValidate cs ver
  | _, _ => none

/-- Parse two versions and compare them. -/
def compareSV (a b : String) : Option Int :=
  match NewVersion a, NewVersion b with
  | .ok va, .ok vb => some (versionCompare va vb)
  | _, _ => none

/-- Parse two versions and test `Equal`. -/
def equalSV (a b : String) : Option Bool :=
  match NewVersion a, NewVersion b with
  | .ok va, .ok vb => some (versionEqual va vb)
  | _, _ => none

/-- Parse a version, increment the given part and render the result. -/
def incPartString (s : String) (i : Nat) : Option (List Char) :=
  match NewVersion s with
  | .ok v => some (versionString (incPart v i))
  | .error _ => none

/-- Derived property used to relate `Check` and `Validate`: a constraint
function reports an error exactly when its boolean verdict is false
(every return site of the Go functions is `(true, nil)` or
`(false, err)`). -/
def goodRes (f : Version → constraint → Bool × Option CheckErr) : Prop :=
  ∀ v c, ((f v c).2 = none ↔ (f v c).1 = true)

/-- Boolean verdict of a single constraint (the first component of Go
`check`), defaulting to false on a missing operator key; a derived
notion used only to state the Check/Validate relation. -/
def checkBool (v : Version) (c : constraint) : Bool :=
  match constraintOps c.origfunc with
  | some f => (f v c).1
  | none => false

/-! Helper lemmas about the list primitives used by the embedding. -/

theorem nthD_beyond : ∀ (l : List Nat) (i : Nat), l.length ≤ i → nthD l i = 0
  | [], _, _ => rfl
  | _ :: _, 0, h => by simp at h
  | _ :: t, i + 1, h => nthD_beyond t i (by simpa using h)

theorem nthD_replicate_zero : ∀ (k i : Nat), nthD (List.replicate k 0) i = 0
  | 0, _ => rfl
  | _ + 1, 0 => rfl
  | k + 1, i + 1 => nthD_replicate_zero k i

theorem nthD_pad : ∀ (l : List Nat) (k i : Nat), nthD (l ++ List.replicate k 0) i = nthD l i
  | [], k, i => by simp [nthD_replicate_zero, nthD]
  | x :: t, k, 0 => rfl
  | x :: t, k, i + 1 => nthD_pad t k i

theorem length_ensureParts (l : List Nat) (e : Nat) :
    (ensureParts l e).length = max l.length e := by
  unfold ensureParts
  split
  · omega
  · simp
    omega

theorem nthD_ensureParts (l : List Nat) (e i : Nat) :
    nthD (ensureParts l e) i = nthD l i := by
  unfold ensureParts
  split
  · rfl
  · exact nthD_pad l _ i

theorem length_updAt : ∀ (l : List Nat) (j x : Nat), (updAt l j x).length = l.length
  | [], _, _ => rfl
  | _ :: _, 0, _ => rfl
  | h :: t, j + 1, x => by simp [updAt, length_updAt t j x]

theorem nthD_updAt_eq : ∀ (l : List Nat) (j x : Nat), j < l.length →
    nthD (updAt l j x) j = x
  | [], j, x, h => by simp at h
  | _ :: _, 0, _, _ => rfl
  | _ :: t, j + 1, x, h => nthD_updAt_eq t j x (by simpa using h)

theorem nthD_updAt_ne : ∀ (l : List Nat) (j k x : Nat), k ≠ j →
    nthD (updAt l j x) k = nthD l k
  | [], _, _, _, _ => rfl
  | _ :: _, 0, 0, _, h => absurd rfl h
  | _ :: _, 0, k + 1, _, _ => rfl
  | _ :: _, j + 1, 0, _, _ => rfl
  | _ :: t, j + 1, k + 1, x, h => nthD_updAt_ne t j k x (fun hk => h (by omega))

theorem zeroFrom_cons_succ (h : Nat) (t : List Nat) (p : Nat) :
    zeroFrom (h :: t) (p + 1) = h :: zeroFrom t p := by
  simp [zeroFrom]

theorem nthD_zeroFrom : ∀ (l : List Nat) (p i : Nat),
    nthD (zeroFrom l p) i = if i < p then nthD l i else 0
  | [], p, i => by
    simp [zeroFrom, nthD]
  | h :: t, 0, i => by
    simp [zeroFrom, nthD_replicate_zero]
  | h :: t, p + 1, 0 => by
    rw [zeroFrom_cons_succ]
    simp [nthD]
  | h :: t, p + 1, i + 1 => by
    rw [zeroFrom_cons_succ]
    show nthD (zeroFrom t p) i = _
    rw [nthD_zeroFrom t p i]
    simp [nthD]

theorem length_zeroFrom (l : List Nat) (p : Nat) :
    (zeroFrom l p).length = l.length := by
  simp [zeroFrom]
  omega

theorem nthStrD_beyond : ∀ (l : List (List Char)) (i : Nat), l.length ≤ i → nthStrD l i = []
  | [], _, _ => rfl
  | _ :: _, 0, h => by simp at h
  | _ :: t, i + 1, h => nthStrD_beyond t i (by simpa using h)

theorem nthStrD_append_left : ∀ (l l' : List (List Char)) (i : Nat), i < l.length →
    nthStrD (l ++ l') i = nthStrD l i
  | [], _, _, h => by simp at h
  | _ :: _, _, 0, _ => rfl
  | _ :: t, l', i + 1, h => nthStrD_append_left t l' i (by simpa using h)

theorem nthStrD_append_at : ∀ (l : List (List Char)) (x : List Char) (r : List (List Char)),
    nthStrD (l ++ x :: r) l.length = x
  | [], _, _ => rfl
  | _ :: t, x, r => nthStrD_append_at t x r

theorem splitOnChar_ne_nil (sep : Char) : ∀ (l : List Char), splitOnChar sep l ≠ []
  | [] => by simp [splitOnChar]
  | c :: rest => by
    unfold splitOnChar
    split
    · simp
    · split <;> simp

theorem compareSegment_self (x : Nat) : compareSegment x x = 0 := by
  unfold compareSegment
  simp

theorem segLoop_none (v o : Version) :
    ∀ is : List Nat, (∀ i ∈ is, partOf v i = partOf o i) → segLoop v o is = none := by
  intro is
  induction is with
  | nil => intro _; rfl
  | cons i rest ih =>
    intro h
    unfold segLoop
    rw [h i (List.mem_cons_self i rest), compareSegment_self]
    simpa using ih (fun j hj => h j (List.mem_cons_of_mem i hj))

theorem comparePrePart_self (s : List Char) : comparePrePart s s = 0 := by
  unfold comparePrePart
  simp

theorem comparePreAux_self (p : List (List Char)) :
    ∀ is : List Nat, comparePreAux p p is = 0 := by
  intro is
  induction is with
  | nil => rfl
  | cons i rest ih =>
    simp only [comparePreAux, comparePrePart_self]
    simpa using ih

theorem comparePrerelease_self (s : List Char) : comparePrerelease s s = 0 := by
  unfold comparePrerelease
  exact comparePreAux_self _ _

theorem comparePrePart_nil_left (x : List Char) (hx : x ≠ []) :
    comparePrePart [] x = -1 := by
  unfold comparePrePart
  rw [if_neg (fun h => hx h.symm), if_pos rfl, if_pos hx]

theorem comparePreAux_first (s o : List (List Char)) :
    ∀ (is1 : List Nat) (k : Nat) (is2 : List Nat),
      (∀ i ∈ is1, nthStrD s i = nthStrD o i) →
      comparePrePart (nthStrD s k) (nthStrD o k) = -1 →
      comparePreAux s o (is1 ++ k :: is2) = -1 := by
  intro is1
  induction is1 with
  | nil =>
    intro k is2 _ hk
    rw [List.nil_append]
    simp only [comparePreAux, hk]
    simp
  | cons i rest ih =>
    intro k is2 h hk
    rw [List.cons_append]
    simp only [comparePreAux, h i (List.mem_cons_self i rest), comparePrePart_self]
    simpa using ih k is2 (fun j hj => h j (List.mem_cons_of_mem i hj)) hk

theorem range_decomp (a r : Nat) :
    ∃ t : List Nat, List.range (a + (r + 1)) = List.range a ++ a :: t := by
  refine ⟨((List.range r).map Nat.succ).map (fun x => a + x), ?_⟩
  rw [List.range_add, List.range_succ_eq_map]
  simp

/-- Claim C7: when two versions have identical prerelease strings and
numeric parts that agree after virtual zero padding (`Part i` equal for
every `i ≥ 1`), `Compare` returns 0; in particular `1.1`, `1.1.0` and
`1.1.0.0` are pairwise `Equal`. -/
theorem C7_zero_padding :
    (∀ a b : Version, a.pre = b.pre →
      (∀ i, 1 ≤ i → partOf a i = partOf b i) → versionCompare a b = 0) ∧
    equalSV "1.1" "1.1.0" = some true ∧
    equalSV "1.1" "1.1.0.0" = some true ∧
    equalSV "1.1.0" "1.1.0.0" = some true := by
  refine ⟨?_, rfl, rfl, rfl⟩
  intro a b hpre hparts
  have hseg : segLoop a b (List.range' 1 (maxPartsNumberOf a b)) = none := by
    apply segLoop_none
    intro i hi
    exact hparts i (List.mem_range'_1.mp hi).1
  simp only [versionCompare]
  rw [hseg, hpre]
  by_cases hb : b.pre = []
  · simp [hb]
  · simp [hb, comparePrerelease_self]

/-- Witness for C7: the zero-padding clause applied to two concrete
versions with equal parts and prereleases. -/
theorem C7_witness :
    versionCompare { parts := [1, 1], pre := [], metadata := [], original := "1.1".toList }
      { parts := [1, 1], pre := [], metadata := [], original := "v1.1".toList } = 0 :=
  C7_zero_padding.1 _ _ rfl (fun _ _ => rfl)

/-- Claim C4 (counterexample): with equal numeric parts and prerelease
identifier lists `[alpha]` and `[alpha, 1]` — a proper prefix — the code
returns `-1`, not the `+1` the claim states. -/
theorem C4_counterexample :
    compareSV "1.0-alpha" "1.0-alpha.1" = some (-1) ∧
    compareSV "1.0-alpha" "1.0-alpha.1" ≠ some 1 := by
  constructor
  · rfl
  · intro h
    rw [show compareSV "1.0-alpha" "1.0-alpha.1" = some (-1) from rfl] at h
    injection h with h2
    exact absurd h2 (by decide)

/-- Claim C4 (amended): the empty placeholder compares below a non-empty
identifier (`comparePrePart "" x = -1`), so when the numeric parts agree,
both prereleases are non-empty and one dot-split identifier list is a
proper prefix of the other (with the first extra identifier non-empty),
`Compare` of the prefix side is `-1`, not `+1`. -/
theorem C4_amended :
    ∀ a b : Version, (∀ i, 1 ≤ i → partOf a i = partOf b i) →
      a.pre ≠ [] → b.pre ≠ [] →
      ∀ (x : List Char) (rest : List (List Char)),
        splitOnChar '.' b.pre = splitOnChar '.' a.pre ++ x :: rest →
        x ≠ [] → versionCompare a b = -1 := by
  intro a b hparts ha hb x rest hsplit hx
  have hseg : segLoop a b (List.range' 1 (maxPartsNumberOf a b)) = none := by
    apply segLoop_none
    intro i hi
    exact hparts i (List.mem_range'_1.mp hi).1
  have hmain : comparePrerelease a.pre b.pre = -1 := by
    simp only [comparePrerelease]
    rw [hsplit]
    have hgt :
        (splitOnChar '.' a.pre ++ x :: rest).length > (splitOnChar '.' a.pre).length := by
      simp
    rw [if_pos hgt]
    have hlen :
        (splitOnChar '.' a.pre ++ x :: rest).length =
          (splitOnChar '.' a.pre).length + (rest.length + 1) := by
      simp
    rw [hlen]
    obtain ⟨t, ht⟩ := range_decomp (splitOnChar '.' a.pre).length rest.length
    rw [ht]
    apply comparePreAux_first
    · intro i hi
      exact (nthStrD_append_left _ _ i (List.mem_range.mp hi)).symm
    · rw [nthStrD_beyond (splitOnChar '.' a.pre) _ (le_refl _), nthStrD_append_at]
      exact comparePrePart_nil_left x hx
  simp only [versionCompare]
  rw [hseg]
  simp [ha, hb, hmain]

/-- Witness for C4 (amended): applied to the parsed structures of
`1.0-alpha` and `1.0-alpha.1`. -/
theorem C4_witness :
    versionCompare
      { parts := [1, 0], pre := "alpha".toList, metadata := [],
        original := "1.0-alpha".toList }
      { parts := [1, 0], pre := "alpha.1".toList, metadata := [],
        original := "1.0-alpha.1".toList } = -1 :=
  C4_amended _ _ (fun _ _ => rfl) (by decide) (by decide) "1".toList []
    (by decide) (by decide)

/-- Claim C9: `Part` is safe only for `i ≥ 1`; for `i ≤ 0` the guard
`len(parts) >= i` passes and `parts[i-1]` is out of bounds (a panic,
modeled as `none`), while for `i ≥ 1` the call is safe and virtual zero
padding applies beyond the parts count. -/
theorem C9_part_guard :
    (∀ (v : Version) (i : Int), i ≤ 0 → PartGo v i = none) ∧
    (∀ (v : Version) (n : Nat), 1 ≤ n → PartGo v (n : Int) = some (partOf v n)) := by
  constructor
  · intro v i hi
    unfold PartGo
    rw [if_pos (by omega : ((v.parts.length : Int) ≥ i)), if_neg (by omega)]
  · intro v n hn
    unfold PartGo partOf
    by_cases hlen : v.parts.length ≥ n
    · rw [if_pos (by exact_mod_cast hlen), if_pos (by constructor <;> omega),
        if_pos hlen]
      have h2 : (((n : Int)) - 1).toNat = n - 1 := by omega
      rw [h2]
    · rw [if_neg (by omega), if_neg hlen]

/-- Witness for C9: both clauses applied at the version `1.2.3`, with
`Part 0` panicking and `Part 4` returning the virtual zero. -/
theorem C9_witness :
    PartGo { parts := [1, 2, 3], pre := [], metadata := [], original := "1.2.3".toList } 0 =
      none ∧
    PartGo { parts := [1, 2, 3], pre := [], metadata := [], original := "1.2.3".toList } 4 =
      some (partOf { parts := [1, 2, 3], pre := [], metadata := [], original := "1.2.3".toList } 4) :=
  ⟨C9_part_guard.1 _ 0 (by decide), C9_part_guard.2 _ 4 (by decide)⟩

theorem versionCompare_congr_left (v v' o : Version)
    (hp : v.parts = v'.parts) (hpre : v.pre = v'.pre) :
    versionCompare v o = versionCompare v' o := by
  have h1 : maxPartsNumberOf v o = maxPartsNumberOf v' o := by
    unfold maxPartsNumberOf partsNumber
    rw [hp]
  have h2 : ∀ is : List Nat, segLoop v o is = segLoop v' o is := by
    intro is
    induction is with
    | nil => rfl
    | cons i rest ih =>
      simp only [segLoop]
      have hpi : partOf v i = partOf v' i := by unfold partOf; rw [hp]
      rw [hpi, ih]
  simp only [versionCompare]
  rw [h1, h2, hpre]

theorem firstMismatch_congr_left (v v' w : Version) (hp : v.parts = v'.parts) :
    ∀ is : List Nat, firstMismatch v w is = firstMismatch v' w is := by
  intro is
  induction is with
  | nil => rfl
  | cons i rest ih =>
    simp only [firstMismatch]
    have hpi : partOf v i = partOf v' i := by unfold partOf; rw [hp]
    rw [hpi, ih]

theorem constraintTildeOrEqual_ext (c : constraint) (v w : Version)
    (hp : v.parts = w.parts) (hpre : v.pre = w.pre) :
    (constraintTildeOrEqual v c).1 = (constraintTildeOrEqual w c).1 := by
  have hcmp := versionCompare_congr_left v w c.con hp hpre
  have hfm := firstMismatch_congr_left v w c.con hp
  simp only [constraintTildeOrEqual, constraintTilde, versionEqual, versionLessThan,
    hpre, hcmp, hfm]

/-- Claim C1 (counterexample): the set parsed from `=1.0.0+hello` also
accepts plain `1.0.0` with verdict `true`, where the claim requires
`false` (metadata-aware equality does not exist in the code). -/
theorem C1_counterexample : checkSV "=1.0.0+hello" "1.0.0" = some true := by rfl

/-- Claim C1 (amended): the `=` family ignores build metadata entirely:
`constraintTildeOrEqual` depends only on the candidate's numeric parts
and prerelease, and the set parsed from `=1.0.0+hello` accepts both
`1.0.0+hello` and `1.0.0`. -/
theorem C1_amended :
    checkSV "=1.0.0+hello" "1.0.0+hello" = some true ∧
    checkSV "=1.0.0+hello" "1.0.0" = some true ∧
    (∀ (c : constraint) (v w : Version), v.parts = w.parts → v.pre = w.pre →
      (constraintTildeOrEqual v c).1 = (constraintTildeOrEqual w c).1) := by
  exact ⟨rfl, rfl, fun c v w h1 h2 => constraintTildeOrEqual_ext c v w h1 h2⟩

/-- Witness for C1: the metadata-independence clause applied to the
parsed constraint `=1.0.0+hello` and the two candidates `1.0.0+hello`
and `1.0.0`, which differ only in metadata and original text. -/
theorem C1_witness :
    (constraintTildeOrEqual
      ⟨[1, 0, 0], [], "hello".toList, "1.0.0+hello".toList⟩
      ⟨⟨[1, 0, 0], [], "hello".toList, "1.0.0+hello".toList⟩,
        "1.0.0+hello".toList, ['='], 0⟩).1 =
    (constraintTildeOrEqual
      ⟨[1, 0, 0], [], [], "1.0.0".toList⟩
      ⟨⟨[1, 0, 0], [], "hello".toList, "1.0.0+hello".toList⟩,
        "1.0.0+hello".toList, ['='], 0⟩).1 :=
  C1_amended.2.2 _ _ _ rfl rfl

/-- Claim C2 (code evaluation at the failing input): the current caret
code freezes only the leading all-zero parts, omitting the first nonzero
part, so `^1.2.3` accepts `2.0.0` and `^0.2.3` accepts `0.3.0` — in
conflict with the operator's own documentation (`^1.2.3 := >=1.2.3,
<2.0.0`); the lower bound and the all-zero rejection do behave as
documented. -/
theorem C2_caret_evaluation :
    checkSV "^1.2.3" "2.0.0" = some true ∧
    checkSV "^0.2.3" "0.3.0" = some true ∧
    checkSV "^1.2.3" "1.9.9" = some true ∧
    checkSV "^2.0.0" "1.9.9" = some false ∧
    validateSV "^0" "1.2.3" = some (false, [CheckErr.caretAllZero]) :=
  ⟨rfl, rfl, rfl, rfl, rfl⟩

/-- Claim C5 (counterexample): `1.x.x` does not parse — the current
parser requires the first wildcard segment to be the last segment, so it
fails with an improper-constraint error rather than producing
`dirtyPart = 2`. -/
theorem C5_counterexample : NewConstraint "1.x.x" = .error .improperConstraint := by rfl

/-- Claim C5 (amended): a wildcard is accepted only as the final
segment: `1.x` parses with `dirtyPart = 2`, while both `1.x.x` and
`1.x.3` fail with an improper-constraint error; in general every token
whose first wildcard segment is not its last segment is rejected by
`parseConstraint`. -/
theorem C5_amended :
    (NewConstraint "1.x").map
      (fun cs => cs.constraints.map (fun g => g.map constraint.dirtyPart)) = .ok [[2]] ∧
    NewConstraint "1.x.x" = .error .improperConstraint ∧
    NewConstraint "1.x.3" = .error .improperConstraint ∧
    (∀ (s op ver : List Char), constraintRegexMatch s = some (op, ver) →
      (0 < firstDirtyPart (splitOnChar '.'
          (match indexOfAny ['+', '-'] ver with
            | none => ver
            | some i => ver.take i)) ∧
        firstDirtyPart (splitOnChar '.'
          (match indexOfAny ['+', '-'] ver with
            | none => ver
            | some i => ver.take i)) ≠
        (splitOnChar '.'
          (match indexOfAny ['+', '-'] ver with
            | none => ver
            | some i => ver.take i)).length) →
      parseConstraintL s = .error .improperConstraint) := by
  refine ⟨rfl, rfl, rfl, ?_⟩
  intro s op ver hm hcond
  have hs0 : s.length > 0 := by
    cases s with
    | nil =>
      rw [show constraintRegexMatch [] = none from rfl] at hm
      cases hm
    | cons a t => simp
  simp only [parseConstraintL]
  rw [if_pos hs0, hm]
  cases hidx : indexOfAny ['+', '-'] ver with
  | none =>
    rw [hidx] at hcond
    simp only [hidx]
    rw [if_pos hcond]
  | some i =>
    rw [hidx] at hcond
    simp only [hidx]
    rw [if_pos hcond]

/-- Witness for C5: the general rejection clause applied to the token
`1.x.3`, whose first wildcard segment (index 2) is not the last of its
three segments. -/
theorem C5_witness :
    parseConstraintL "1.x.3".toList = .error .improperConstraint :=
  C5_amended.2.2.2 _ [] "1.x.3".toList rfl (by decide)

theorem firstMismatch_none_iff (v w : Version) :
    ∀ is : List Nat, (firstMismatch v w is = none ↔ ∀ i ∈ is, partOf v i = partOf w i) := by
  intro is
  induction is with
  | nil => simp [firstMismatch]
  | cons i rest ih =>
    by_cases h : partOf v i = partOf w i
    · simp [firstMismatch, h, ih]
    · simp [firstMismatch, h]

theorem firstMismatch_isSome (v w : Version) :
    ∀ (is : List Nat) (k : Nat), firstMismatch v w is = some k →
      k ∈ is ∧ partOf v k ≠ partOf w k := by
  intro is
  induction is with
  | nil => intro k h; cases h
  | cons i rest ih =>
    intro k h
    by_cases hc : partOf v i ≠ partOf w i
    · rw [show firstMismatch v w (i :: rest) =
          (if partOf v i ≠ partOf w i then some i else firstMismatch v w rest) from rfl,
        if_pos hc] at h
      injection h with h2
      subst h2
      exact ⟨List.mem_cons_self i rest, hc⟩
    · rw [show firstMismatch v w (i :: rest) =
          (if partOf v i ≠ partOf w i then some i else firstMismatch v w rest) from rfl,
        if_neg hc] at h
      obtain ⟨h1, h2⟩ := ih k h
      exact ⟨List.mem_cons_of_mem _ h1, h2⟩

/-- Claim C6: for a tilde constraint whose reference has no wildcard and
no prerelease, and a candidate without prerelease, the check passes iff
the candidate compares at least the reference and agrees with it on
every part strictly before the last stated part; `~1.2.3` accepts
`1.2.9` and rejects `1.3.0`. -/
theorem C6_tilde :
    (∀ (c : constraint) (v : Version), c.dirtyPart = 0 → c.con.pre = [] → v.pre = [] →
      ((constraintTilde v c).1 = true ↔
        (0 ≤ versionCompare v c.con ∧
          ∀ i, 1 ≤ i → i < partsNumber c.con → partOf v i = partOf c.con i))) ∧
    checkSV "~1.2.3" "1.2.9" = some true ∧
    checkSV "~1.2.3" "1.3.0" = some false := by
  refine ⟨?_, rfl, rfl⟩
  intro c v hd hcpre hvpre
  simp only [constraintTilde]
  rw [if_neg (by simp [hvpre])]
  by_cases hlt : versionCompare v c.con < 0
  · rw [if_pos (by simp [versionLessThan, hlt])]
    simp only []
    constructor
    · intro h; cases h
    · rintro ⟨h0, _⟩; omega
  · rw [if_neg (by simp [versionLessThan, hlt])]
    have hdl : dirtyPartOrLen c = partsNumber c.con := by simp [dirtyPartOrLen, hd]
    rw [hdl]
    cases hfm : firstMismatch v c.con (List.range' 1 (partsNumber c.con - 1)) with
    | none =>
      simp only []
      constructor
      · intro _
        refine ⟨by omega, ?_⟩
        intro i h1 hi
        exact (firstMismatch_none_iff v c.con _).mp hfm i
          (by rw [List.mem_range'_1]; omega)
      · intro _; trivial
    | some k =>
      simp only []
      constructor
      · intro h; cases h
      · rintro ⟨_, hall⟩
        obtain ⟨hk1, hk2⟩ := firstMismatch_isSome v c.con _ k hfm
        rw [List.mem_range'_1] at hk1
        exact absurd (hall k (by omega) (by omega)) hk2

/-- Witness for C6: the tilde characterization applied to `~1.2.3`
against the candidate `1.2.9`. -/
theorem C6_witness :
    (constraintTilde ⟨[1, 2, 9], [], [], "1.2.9".toList⟩
      ⟨⟨[1, 2, 3], [], [], "1.2.3".toList⟩, "1.2.3".toList, ['~'], 0⟩).1 = true :=
  (C6_tilde.1 _ _ rfl rfl rfl).mpr
    ⟨by decide, by
      intro i h1 h2
      simp only [partsNumber] at h2
      have h3 : i < 3 := by simpa using h2
      interval_cases i <;> rfl⟩

theorem goodRes_notEqual : goodRes constraintNotEqual := by
  intro v c
  unfold constraintNotEqual
  split
  · split
    · simp
    · split <;> simp
  · split <;> simp

theorem goodRes_greaterThan : goodRes constraintGreaterThan := by
  intro v c
  unfold constraintGreaterThan
  split
  · simp
  · split <;> simp

theorem goodRes_lessThan : goodRes constraintLessThan := by
  intro v c
  unfold constraintLessThan
  split
  · simp
  · split <;> simp

theorem goodRes_greaterThanEqual : goodRes constraintGreaterThanEqual := by
  intro v c
  unfold constraintGreaterThanEqual
  split
  · simp
  · split <;> simp

theorem goodRes_lessThanEqual : goodRes constraintLessThanEqual := by
  intro v c
  unfold constraintLessThanEqual
  split
  · simp
  · split <;> simp

theorem goodRes_tilde : goodRes constraintTilde := by
  intro v c
  unfold constraintTilde
  split
  · simp
  · split
    · simp
    · split <;> simp

theorem goodRes_tildeOrEqual : goodRes constraintTildeOrEqual := by
  intro v c
  unfold constraintTildeOrEqual
  split
  · simp
  · split
    · exact goodRes_tilde v c
    · split <;> simp

theorem goodRes_caret : goodRes constraintCaret := by
  intro v c
  simp only [constraintCaret]
  split
  · simp
  · split
    · simp
    · split
      · simp
      · split <;> simp

set_option maxHeartbeats 1000000 in
theorem constraintOps_goodRes :
    ∀ (s : List Char) (f : Version → constraint → Bool × Option CheckErr),
      constraintOps s = some f → goodRes f := by
  intro s f h
  unfold constraintOps at h
  repeat' split at h
  any_goals exact Option.noConfusion h
  all_goals rw [← Option.some.inj h]
  exacts [goodRes_tildeOrEqual, goodRes_tildeOrEqual, goodRes_notEqual,
    goodRes_greaterThan, goodRes_lessThan, goodRes_greaterThanEqual,
    goodRes_greaterThanEqual, goodRes_lessThanEqual, goodRes_lessThanEqual,
    goodRes_tilde, goodRes_tilde, goodRes_caret]

theorem checkGroup_eq (v : Version) :
    ∀ g : List constraint, (∀ c ∈ g, (constraintOps c.origfunc).isSome = true) →
      checkGroup v g = some (g.all (fun c => checkBool v c)) := by
  intro g
  induction g with
  | nil => intro _; rfl
  | cons c rest ih =>
    intro h
    obtain ⟨f, hf⟩ := Option.isSome_iff_exists.mp (h c (List.mem_cons_self c rest))
    have hrest := ih (fun d hd => h d (List.mem_cons_of_mem c hd))
    cases hbe : f v c with
    | mk b e =>
      have hcb : checkBool v c = b := by simp [checkBool, hf, hbe]
      simp only [checkGroup, checkOne, hf, Option.map_some', hbe]
      cases b with
      | true => simp [hrest, hcb]
      | false => simp [hcb]

theorem validateGroup_eq (v : Version) (hv : v.pre = []) :
    ∀ g : List constraint, (∀ c ∈ g, (constraintOps c.origfunc).isSome = true) →
      ∀ (preFlag : Bool) (acc : List CheckErr) (joy : Bool),
        ∃ acc2, validateGroup v g preFlag acc joy =
          some (joy && g.all (fun c => checkBool v c), preFlag, acc2) := by
  intro g
  induction g with
  | nil =>
    intro _ preFlag acc joy
    exact ⟨acc, by simp [validateGroup]⟩
  | cons c rest ih =>
    intro h preFlag acc joy
    obtain ⟨f, hf⟩ := Option.isSome_iff_exists.mp (h c (List.mem_cons_self c rest))
    have hrest := ih (fun d hd => h d (List.mem_cons_of_mem c hd))
    have hskip : ¬(c.con.pre = [] ∧ v.pre ≠ []) := by simp [hv]
    cases hbe : f v c with
    | mk b e =>
      have hcb : checkBool v c = b := by simp [checkBool, hf, hbe]
      have hgood := constraintOps_goodRes c.origfunc f hf v c
      rw [hbe] at hgood
      simp only at hgood
      simp only [validateGroup, if_neg hskip, checkOne, hf, Option.map_some', hbe]
      cases e with
      | some err =>
        have hb : b = false := by
          cases b with
          | false => rfl
          | true => exact absurd (hgood.mpr rfl) (by simp)
        obtain ⟨acc2, ha⟩ := hrest preFlag (acc ++ [err]) false
        exact ⟨acc2, ha.trans (by simp [hcb, hb])⟩
      | none =>
        have hb : b = true := hgood.mp rfl
        obtain ⟨acc2, ha⟩ := hrest preFlag acc joy
        exact ⟨acc2, ha.trans (by simp [hcb, hb])⟩

theorem validateGroups_eq (v : Version) (hv : v.pre = []) :
    ∀ gl : List (List constraint),
      (∀ g ∈ gl, ∀ c ∈ g, (constraintOps c.origfunc).isSome = true) →
      ∀ (preFlag : Bool) (acc : List CheckErr),
        (validateGroups v gl preFlag acc).map Prod.fst = checkGroups v gl := by
  intro gl
  induction gl with
  | nil => intro _ _ _; rfl
  | cons g rest ih =>
    intro h preFlag acc
    obtain ⟨acc2, ha⟩ := validateGroup_eq v hv g (h g (List.mem_cons_self g rest)) preFlag acc true
    have hc := checkGroup_eq v g (h g (List.mem_cons_self g rest))
    simp only [validateGroups, checkGroups, ha, hc, Bool.true_and]
    cases hall : g.all (fun c => checkBool v c) with
    | true => simp
    | false =>
      simp only [Bool.false_eq_true, if_false]
      exact ih (fun g2 hg2 c hc2 => h g2 (List.mem_cons_of_mem g hg2) c hc2) preFlag acc2

/-- Claim C3 (counterexample): for the set `!=1.2.3` and the prerelease
version `1.2.4-alpha`, `Check` returns true while `Validate` reports
false: `constraintNotEqual` without a wildcard has no prerelease guard,
but `Validate`'s special prerelease branch rejects the version before
ever calling it. -/
theorem C3_counterexample :
    checkSV "!=1.2.3" "1.2.4-alpha" = some true ∧
    validateSV "!=1.2.3" "1.2.4-alpha" = some (false, [CheckErr.prereleaseOnly]) :=
  ⟨rfl, rfl⟩

/-- Claim C3 (amended): the boolean returned by `Validate` agrees with
`Check` for every constraint set (whose operators are all in the op
table) and every version WITHOUT a prerelease; when the version carries
a prerelease the two can disagree (see the counterexample). -/
theorem C3_amended :
    ∀ (cs : Constraints) (v : Version),
      (∀ g ∈ cs.constraints, ∀ c ∈ g, (constraintOps c.origfunc).isSome = true) →
      v.pre = [] →
      (constraintsValidate cs v).map Prod.fst = constraintsCheck cs v := by
  intro cs v hw hv
  unfold constraintsValidate constraintsCheck
  exact validateGroups_eq v hv cs.constraints hw false []

/-- Witness for C3: the amended equivalence applied to the parsed set
`!=1.2.3` and the release version `1.2.4`. -/
theorem C3_witness :
    (constraintsValidate
        ⟨[[⟨⟨[1, 2, 3], [], [], "1.2.3".toList⟩, "1.2.3".toList, "!=".toList, 0⟩]]⟩
        ⟨[1, 2, 4], [], [], "1.2.4".toList⟩).map Prod.fst =
      constraintsCheck
        ⟨[[⟨⟨[1, 2, 3], [], [], "1.2.3".toList⟩, "1.2.3".toList, "!=".toList, 0⟩]]⟩
        ⟨[1, 2, 4], [], [], "1.2.4".toList⟩ :=
  C3_amended _ _ (by decide) rfl

theorem updateOriginal_parts (x : Version) : (updateOriginal x).parts = x.parts := rfl

theorem partOf_updateOriginal (x : Version) (j : Nat) :
    partOf (updateOriginal x) j = partOf x j := rfl

theorem partOf_def (x : Version) (j : Nat) :
    partOf x j = if x.parts.length ≥ j then nthD x.parts (j - 1) else 0 := rfl

theorem partOf_mk (p : List Nat) (pr m o : List Char) (j : Nat) :
    partOf ⟨p, pr, m, o⟩ j = if p.length ≥ j then nthD p (j - 1) else 0 := rfl

theorem ensureParts_of_ge (l : List Nat) (e : Nat) (h : l.length ≥ e) :
    ensureParts l e = l := by
  unfold ensureParts
  rw [if_pos h]

theorem incPart_eq_beyond_withPre (v : Version) (i : Nat)
    (h2 : v.parts.length ≤ i) (h3 : v.pre ≠ []) :
    incPart v i =
      updateOriginal ⟨ensureParts v.parts i, [], [], v.original⟩ := by
  simp only [incPart]
  rw [if_pos (by rw [length_ensureParts]; omega), if_pos h3]

theorem incPart_eq_beyond_noPre (v : Version) (i : Nat)
    (h2 : v.parts.length ≤ i) (h3 : v.pre = []) :
    incPart v i =
      updateOriginal
        ⟨updAt (ensureParts v.parts i) ((ensureParts v.parts i).length - 1)
            ((nthD (ensureParts v.parts i) ((ensureParts v.parts i).length - 1) + 1) % 2 ^ 64),
          [], [], v.original⟩ := by
  simp only [incPart]
  rw [if_pos (by rw [length_ensureParts]; omega), if_neg (by simp [h3])]

theorem incPart_eq_inner (v : Version) (i : Nat) (h2 : i < v.parts.length) :
    incPart v i =
      updateOriginal
        ⟨zeroFrom (updAt v.parts (i - 1) ((nthD v.parts (i - 1) + 1) % 2 ^ 64)) i,
          [], [], v.original⟩ := by
  simp only [incPart]
  rw [ensureParts_of_ge v.parts i (by omega), if_neg (by omega)]

theorem nthD_vs_partOf (v : Version) (i : Nat) :
    nthD v.parts (i - 1) = partOf v i := by
  rw [partOf_def]
  by_cases hle : v.parts.length ≥ i
  · rw [if_pos hle]
  · rw [if_neg hle]
    exact nthD_beyond _ _ (by omega)

/-- Claim C8: `IncPart i` strips prerelease and metadata without
touching any numeric part when `i` is at or beyond the last part (after
zero padding) and a prerelease is present; strips only metadata and
increments part `i` by one when `i` is at or beyond the last part with
no prerelease; and before the last part it strips both, increments part
`i` and zeroes every later part.  Hence `IncMinor` of `1.2.3` renders
as `1.3.0` and `IncPatch` of `1.2.3-beta+meta` as `1.2.3`.  (The
increment is the Go `uint64` increment, so exact `+1` holds under the
explicit no-wraparound bound.) -/
theorem C8_incpart :
    (∀ (v : Version) (i : Nat), 1 ≤ i → v.parts.length ≤ i → v.pre ≠ [] →
      ((incPart v i).pre = [] ∧ (incPart v i).metadata = [] ∧
        ∀ j, 1 ≤ j → partOf (incPart v i) j = partOf v j)) ∧
    (∀ (v : Version) (i : Nat), 1 ≤ i → v.parts.length ≤ i → v.pre = [] →
      partOf v i + 1 < 2 ^ 64 →
      ((incPart v i).pre = [] ∧ (incPart v i).metadata = [] ∧
        partOf (incPart v i) i = partOf v i + 1 ∧
        ∀ j, 1 ≤ j → j ≠ i → partOf (incPart v i) j = partOf v j)) ∧
    (∀ (v : Version) (i : Nat), 1 ≤ i → i < v.parts.length →
      partOf v i + 1 < 2 ^ 64 →
      ((incPart v i).pre = [] ∧ (incPart v i).metadata = [] ∧
        partOf (incPart v i) i = partOf v i + 1 ∧
        (∀ j, 1 ≤ j → j < i → partOf (incPart v i) j = partOf v j) ∧
        (∀ j, i < j → partOf (incPart v i) j = 0))) ∧
    (NewVersion "1.2.3").map (fun v => versionString (incMinor v)) = .ok "1.3.0".toList ∧
    (NewVersion "1.2.3-beta+meta").map (fun v => versionString (incPatch v)) =
      .ok "1.2.3".toList := by
  refine ⟨?_, ?_, ?_, rfl, rfl⟩
  · intro v i h1 h2 h3
    rw [incPart_eq_beyond_withPre v i h2 h3]
    refine ⟨rfl, rfl, ?_⟩
    intro j hj
    rw [partOf_updateOriginal, partOf_mk, length_ensureParts, nthD_ensureParts,
      partOf_def]
    by_cases hle : v.parts.length ≥ j
    · rw [if_pos (by omega), if_pos hle]
    · rw [if_neg hle]
      by_cases hij : max v.parts.length i ≥ j
      · rw [if_pos hij]
        exact nthD_beyond _ _ (by omega)
      · rw [if_neg hij]
  · intro v i h1 h2 h3 hb
    have hlen : (ensureParts v.parts i).length = i := by rw [length_ensureParts]; omega
    rw [incPart_eq_beyond_noPre v i h2 h3]
    refine ⟨rfl, rfl, ?_, ?_⟩
    · rw [partOf_updateOriginal, partOf_mk, length_updAt, hlen,
        if_pos (le_refl i), nthD_updAt_eq _ _ _ (by rw [hlen]; omega),
        nthD_ensureParts, nthD_vs_partOf v i, Nat.mod_eq_of_lt hb]
    · intro j hj hji
      rw [partOf_updateOriginal, partOf_mk, length_updAt, hlen,
        nthD_updAt_ne _ _ _ _ (by omega), nthD_ensureParts, partOf_def]
      by_cases hle : v.parts.length ≥ j
      · rw [if_pos (by omega), if_pos hle]
      · rw [if_neg hle]
        by_cases hij : i ≥ j
        · rw [if_pos hij]
          exact nthD_beyond _ _ (by omega)
        · rw [if_neg hij]
  · intro v i h1 h2 hb
    rw [incPart_eq_inner v i h2]
    have hlz :
        (zeroFrom (updAt v.parts (i - 1) ((nthD v.parts (i - 1) + 1) % 2 ^ 64)) i).length =
          v.parts.length := by
      rw [length_zeroFrom, length_updAt]
    refine ⟨rfl, rfl, ?_, ?_, ?_⟩
    · rw [partOf_updateOriginal, partOf_mk, hlz, if_pos (by omega), nthD_zeroFrom,
        if_pos (by omega), nthD_updAt_eq _ _ _ (by omega), partOf_def,
        if_pos (by omega), Nat.mod_eq_of_lt ?hb2]
      case hb2 =>
        rw [partOf_def, if_pos (by omega)] at hb
        exact hb
    · intro j hj hji
      rw [partOf_updateOriginal, partOf_mk, hlz, if_pos (by omega), nthD_zeroFrom,
        if_pos (by omega), nthD_updAt_ne _ _ _ _ (by omega), partOf_def,
        if_pos (by omega)]
    · intro j hji
      rw [partOf_updateOriginal, partOf_mk, hlz]
      by_cases hle : v.parts.length ≥ j
      · rw [if_pos hle, nthD_zeroFrom, if_neg (by omega)]
      · rw [if_neg hle]

/-- Witness for C8: the three clauses applied at concrete versions:
stripping a prerelease on the last part, incrementing the last part and
incrementing an inner part. -/
theorem C8_witness :
    ((incPart ⟨[1, 2, 3], "beta".toList, "meta".toList, "1.2.3-beta+meta".toList⟩ 3).pre = [] ∧
      partOf (incPart ⟨[1, 2, 3], "beta".toList, "meta".toList, "1.2.3-beta+meta".toList⟩ 3) 3 =
        partOf ⟨[1, 2, 3], "beta".toList, "meta".toList, "1.2.3-beta+meta".toList⟩ 3) ∧
    partOf (incPart ⟨[1, 2, 3], [], [], "1.2.3".toList⟩ 3) 3 =
      partOf ⟨[1, 2, 3], [], [], "1.2.3".toList⟩ 3 + 1 ∧
    partOf (incPart ⟨[1, 2, 3], [], [], "1.2.3".toList⟩ 2) 3 = 0 :=
  ⟨⟨(C8_incpart.1 _ 3 (by decide) (by decide) (by decide)).1,
      (C8_incpart.1 _ 3 (by decide) (by decide) (by decide)).2.2 3 (by decide)⟩,
    (C8_incpart.2.1 _ 3 (by decide) (by decide) rfl (by decide)).2.2.1,
    (C8_incpart.2.2.1 _ 2 (by decide) (by decide) (by decide)).2.2.2.2 3 (by decide)⟩

theorem indexOfChar_mem_take (c : Char) :
    ∀ (l : List Char) (p m : Nat), indexOfChar c l = some p → p < m → c ∈ l.take m
  | [], p, m, h, _ => by cases h
  | x :: t, p, m, h, hpm => by
    unfold indexOfChar at h
    by_cases hx : x = c
    · rw [if_pos hx] at h
      cases m with
      | zero => omega
      | succ m2 =>
        rw [List.take_succ_cons]
        exact List.mem_cons.mpr (Or.inl hx.symm)
    · rw [if_neg hx] at h
      cases hq : indexOfChar c t with
      | none => rw [hq] at h; cases h
      | some q =>
        rw [hq] at h
        simp only [Option.map_some'] at h
        injection h with h2
        cases m with
        | zero => omega
        | succ m2 =>
          rw [List.take_succ_cons]
          exact List.mem_cons.mpr
            (Or.inr (indexOfChar_mem_take c t q m2 hq (by omega)))

theorem splitOnChar_mem (sep c : Char) (hcs : c ≠ sep) :
    ∀ l : List Char, c ∈ l → ∃ q ∈ splitOnChar sep l, c ∈ q
  | [], h => by cases h
  | x :: rest, h => by
    unfold splitOnChar
    cases hs : splitOnChar sep rest with
    | nil => exact absurd hs (splitOnChar_ne_nil sep rest)
    | cons h1 t1 =>
      dsimp only
      by_cases hx : x = sep
      · rw [if_pos hx]
        have hcr : c ∈ rest := by
          cases List.mem_cons.mp h with
          | inl hh => exact absurd (hh.trans hx) hcs
          | inr hh => exact hh
        obtain ⟨q, hq1, hq2⟩ := splitOnChar_mem sep c hcs rest hcr
        rw [hs] at hq1
        exact ⟨q, List.mem_cons_of_mem _ hq1, hq2⟩
      · rw [if_neg hx]
        cases List.mem_cons.mp h with
        | inl hh =>
          exact ⟨x :: h1, List.mem_cons_self _ _,
            by rw [hh]; exact List.mem_cons_self x h1⟩
        | inr hh =>
          obtain ⟨q, hq1, hq2⟩ := splitOnChar_mem sep c hcs rest hh
          rw [hs] at hq1
          cases List.mem_cons.mp hq1 with
          | inl hq3 =>
            refine ⟨x :: h1, List.mem_cons_self _ _, ?_⟩
            rw [← hq3]
            exact List.mem_cons_of_mem x hq2
          | inr hq3 => exact ⟨q, List.mem_cons_of_mem _ hq3, hq2⟩

theorem goParseUint64_none_of_mem (q : List Char) (c : Char) (hc : c ∈ q)
    (hd : c.isDigit = false) : goParseUint64 q = none := by
  unfold goParseUint64
  rw [if_neg (by intro h; subst h; cases hc)]
  rw [if_neg (by
    intro h
    have := List.all_eq_true.mp h c hc
    rw [hd] at this
    cases this)]

theorem parsePartsList_err :
    ∀ parts : List (List Char), (∃ q ∈ parts, goParseUint64 q = none) →
      ∃ e, parsePartsList parts = .error e ∧
        (e = VErr.invalidCharacters ∨ e = VErr.segmentStartsZero)
  | [], h => by
    obtain ⟨q, hq1, _⟩ := h
    cases hq1
  | p :: rest, h => by
    cases hp : goParseUint64 p with
    | none => exact ⟨.invalidCharacters, by simp [parsePartsList, hp], Or.inl rfl⟩
    | some n =>
      obtain ⟨q, hq1, hq2⟩ := h
      have hqr : q ∈ rest := by
        cases List.mem_cons.mp hq1 with
        | inl he => rw [he, hp] at hq2; cases hq2
        | inr he => exact he
      by_cases hz : p.length > 1 ∧ p.head? = some '0'
      · exact ⟨.segmentStartsZero, by simp [parsePartsList, hp, hz], Or.inr rfl⟩
      · obtain ⟨e, he1, he2⟩ := parsePartsList_err rest ⟨q, hqr, hq2⟩
        refine ⟨e, ?_, he2⟩
        simp [parsePartsList, hp, hz, he1]

theorem strictNewVersion_err_of_plus_before_dash :
    ∀ (s : List Char) (p m : Nat),
      indexOfChar '+' s = some p → indexOfChar '-' s = some m → p < m →
      ∃ e, strictNewVersionL s = .error e ∧
        (e = VErr.invalidCharacters ∨ e = VErr.segmentStartsZero) := by
  intro s p m hp hm hpm
  have hplus : '+' ∈ s.take m := indexOfChar_mem_take '+' s p m hp hpm
  obtain ⟨q, hq1, hq2⟩ := splitOnChar_mem '.' '+' (by decide) (s.take m) hplus
  have hqn : goParseUint64 q = none := goParseUint64_none_of_mem q '+' hq2 (by decide)
  obtain ⟨e, he1, he2⟩ := parsePartsList_err (splitOnChar '.' (s.take m)) ⟨q, hq1, hqn⟩
  refine ⟨e, ?_, he2⟩
  have hs0 : ¬(s.length = 0) := by
    cases s with
    | nil => cases hp
    | cons a t => simp
  simp only [strictNewVersionL, hm]
  rw [if_neg hs0]
  rw [if_neg (by
    intro hl
    exact splitOnChar_ne_nil '.' (s.take m) (List.length_eq_zero.mp hl))]
  rw [he1]

/-- Claim C10 (counterexample): `01.2+a-b` has its first `-` (index 6)
after its first `+` (index 4), yet it fails with `ErrSegmentStartsZero`
(the leading-zero segment `01` is checked first), not the
`ErrInvalidCharacters` the claim asserts for every such input. -/
theorem C10_counterexample :
    indexOfChar '+' "01.2+a-b".toList = some 4 ∧
    indexOfChar '-' "01.2+a-b".toList = some 6 ∧
    StrictNewVersion "01.2+a-b" = .error .segmentStartsZero ∧
    StrictNewVersion "01.2+a-b" ≠ .error .invalidCharacters := by
  refine ⟨rfl, rfl, rfl, ?_⟩
  intro h
  rw [show StrictNewVersion "01.2+a-b" = .error .segmentStartsZero from rfl] at h
  injection h with h2
  cases h2

/-- Claim C10 (amended): when the first `-` of the input occurs after
the first `+` (the hyphen sits inside the would-be metadata), the
prerelease split leaves the `+` and the metadata head inside a numeric
segment and parsing always fails; the error is `ErrInvalidCharacters`
unless an earlier segment triggers `ErrSegmentStartsZero` first; on
`1.2.3+build-x` both `StrictNewVersion` and `NewVersion` return
`ErrInvalidCharacters`. -/
theorem C10_amended :
    (∀ (s : List Char) (p m : Nat),
      indexOfChar '+' s = some p → indexOfChar '-' s = some m → p < m →
      ∃ e, strictNewVersionL s = .error e ∧
        (e = VErr.invalidCharacters ∨ e = VErr.segmentStartsZero)) ∧
    StrictNewVersion "1.2.3+build-x" = .error .invalidCharacters ∧
    NewVersion "1.2.3+build-x" = .error .invalidCharacters :=
  ⟨strictNewVersion_err_of_plus_before_dash, rfl, rfl⟩

/-- Witness for C10: the general clause applied to `1.2.3+build-x`,
whose first `+` is at index 5 and first `-` at index 11. -/
theorem C10_witness :
    ∃ e, strictNewVersionL "1.2.3+build-x".toList = .error e ∧
      (e = VErr.invalidCharacters ∨ e = VErr.segmentStartsZero) :=
  C10_amended.1 _ 5 11 rfl rfl (by decide)
